import Mathlib

/-!
Verification of the adaptive scheduling and accumulation controller of
`coffea/processor/work_queue_tools.py`.

The Python source is shallowly embedded below.  Python integers are `ℕ`/`ℤ`,
Python floats are idealised as exact rationals `ℚ`, dictionaries are
association lists, raised exceptions are `Except`/`Option` results.
-/

/-! ## Stats (source: `class Stats(dict)`) -/

/-- A `Stats` mapping, modelling the `Stats(dict)` subclass: an insertion
ordered association from counter names to numbers. -/
structure Stats where
  entries : List (String × ℚ)
deriving DecidableEq

/-- Dictionary lookup, `self[stat]` read access. -/
def Stats.lookup (s : Stats) (k : String) : Option ℚ :=
  List.lookup k s.entries

/-- Dictionary assignment `self[stat] = value`: replace the value of an
existing key in place, otherwise append the new key. -/
def insertPair (k : String) (v : ℚ) : List (String × ℚ) → List (String × ℚ)
  | [] => [(k, v)]
  | (k0, v0) :: rest =>
      if k == k0 then (k0, v) :: rest else (k0, v0) :: insertPair k v rest

/-- `Stats.set`, source: `def set(self, stat, value): self[stat] = value`. -/
def Stats.set (s : Stats) (k : String) (v : ℚ) : Stats :=
  ⟨insertPair k v s.entries⟩

/-- Python's `dict.setdefault(stat, d)`: return the stored value if the key is
present; otherwise insert `d` and return it.  The mutated dictionary is
returned alongside the value. -/
def Stats.setdefault (s : Stats) (k : String) (d : ℚ) : ℚ × Stats :=
  match s.lookup k with
  | some v => (v, s)
  | none => (d, s.set k d)

/-- Source: `def get(self, stat, default=None): return self.setdefault(stat, 0)`.
The supplied `default` is ignored by the body. -/
def Stats.get (s : Stats) (k : String) (default : Option ℚ) : ℚ × Stats :=
  s.setdefault k 0

/-- The value stored for `k`, with `0` for a missing key (the value
`Stats.get` produces). -/
def lookupD (s : Stats) (k : String) : ℚ :=
  (s.lookup k).getD 0

/-! ## Force-flush flag (source: `CoffeaWQ._submit_accum_tasks`, lines 355-359)

```
force = (stats.get("events_processed") >= stats.get("events_total")) or early_terminate
force = early_terminate
force |= stats.get("events_processed") >= stats.get("events_total")
```
Each `stats.get` may mutate the dictionary (it is `setdefault`), so the
state is threaded through all four calls in evaluation order. -/
def forceFlush (s : Stats) (early_terminate : Bool) : Bool × Stats :=
  let g1 := s.get "events_processed" none
  let g2 := g1.2.get "events_total" none
  let force := (decide (g2.1 ≤ g1.1)) || early_terminate
  let force := early_terminate
  let g3 := g2.2.get "events_processed" none
  let g4 := g3.2.get "events_total" none
  let force := force || decide (g4.1 ≤ g3.1)
  (force, g4.2)

/-! ## Chunk-size rounding (source: `_floor_to_pow2`, lines 1105-1108)

```
def _floor_to_pow2(value):
    if value < 1:
        return 1
    return pow(2, math.floor(math.log2(value)))
```
`math.floor(math.log2 value)` is idealised as the exact base-2 integer
logarithm of `⌊value⌋` (for `value ≥ 1` the two agree in exact arithmetic). -/
def _floor_to_pow2 (value : ℚ) : ℚ :=
  if value < 1 then 1 else (2 : ℚ) ^ (Nat.log 2 (Int.toNat ⌊value⌋))

/-! ## Task splitting (source: `ProcCoffeaWQTask.split`, lines 793-831) -/

/-- Exact `math.ceil(a / b)` on naturals (`b > 0`); `ceilDiv a 0 = 0` is never
reached by the embedded code paths used in the theorems below. -/
def ceilDiv (a b : ℕ) : ℕ :=
  (a + b - 1) / b

/-- The `while start < self.item.entrystop` loop of `split`: emit
`[start, min stop (start + actual_chunksize))` sub-ranges until `stop` is
reached. -/
def splitRanges (stop actual : ℕ) (start : ℕ) : List (ℕ × ℕ) :=
  if h : start < stop ∧ 0 < actual then
    (start, min stop (start + actual)) ::
      splitRanges stop actual (min stop (start + actual))
  else []
termination_by stop - start
decreasing_by omega

/-- `ProcCoffeaWQTask.split`, reduced to the ranges of the child work items.
`none` models the `RuntimeError` raised when the task covers fewer than two
events.  `current_chunksize` is the queue's current target chunk size. -/
def procSplit (current_chunksize : ℕ) (a b : ℕ) : Option (List (ℕ × ℕ)) :=
  let total := b - a
  if total < 2 then none
  else
    let target_chunksize :=
      if total ≤ current_chunksize then ceilDiv total 2 else current_chunksize
    let n := max (ceilDiv total target_chunksize) 1
    let actual_chunksize := ceilDiv total n
    some (splitRanges b actual_chunksize a)

/-! ## Accumulation scheduling (source: `CoffeaWQ._submit_accum_tasks`,
lines 350-385, and `_group_lst`, lines 980-982)

A staged task is reduced to the data the scheduler uses: an identifier and
its `fout_size` (measured output artifact size). -/

/-- `_group_lst(lst, n)`: consecutive slices of length `n` (the last may be
shorter).  `n = 0` would make Python's `range` raise; the caller always
passes `chunks_per_accum ≥ 2`. -/
def groupLst (n : ℕ) (l : List (ℕ × ℚ)) : List (List (ℕ × ℚ)) :=
  if h : l = [] ∨ n = 0 then []
  else l.take n :: groupLst n (l.drop n)
termination_by l.length
decreasing_by
  push_neg at h
  have hl : l.length ≠ 0 := fun h0 => h.1 (List.eq_nil_of_length_eq_zero h0)
  have := List.length_drop n l
  omega

/-- The `for next_to_accum in _group_lst(...)` loop.  Each full (and, under
force, each at-least-2-member) group is emitted as one accumulation task;
hitting a short group reassigns `self.tasks_to_accumulate` to that group and
breaks.  If the loop runs to the end, the pending list is left as it was
(`pending`).  Returns (emitted groups, pending list after the loop). -/
def accumLoop (k : ℕ) (force : Bool) :
    List (List (ℕ × ℚ)) → List (ℕ × ℚ) →
      List (List (ℕ × ℚ)) × List (ℕ × ℚ)
  | [], pending => ([], pending)
  | g :: rest, pending =>
      if g.length < 2 ∨ (g.length < k ∧ force = false) then ([], g)
      else
        let r := accumLoop k force rest pending
        (g :: r.1, r.2)

/-- `CoffeaWQ._submit_accum_tasks` without the `force` computation (see
`forceFlush`): early return when the staging buffer is small and no flush is
forced, otherwise sort by `fout_size` (Python's stable sort) and run the
grouping loop.  Result: (children of the emitted accumulation tasks, the
`tasks_to_accumulate` list retained afterwards). -/
def submitAccumTasks (chunks_per_accum : ℕ) (force : Bool)
    (tasks : List (ℕ × ℚ)) :
    List (List (ℕ × ℚ)) × List (ℕ × ℚ) :=
  if tasks.length < 2 * chunks_per_accum - 1 ∧ force = false then ([], tasks)
  else
    let sorted := List.insertionSort (fun a b => a.2 ≤ b.2) tasks
    accumLoop chunks_per_accum force (groupLst chunks_per_accum sorted) sorted

/-! ## Dynamic chunk-size estimation (source: `_compute_chunksize`,
lines 1122-1150, and `_compute_chunksize_target`, lines 1153-1192) -/

/-- A `TaskReport(events_count, wall_time, memory)` record (line 80). -/
structure TaskReport where
  events_count : ℕ
  wall_time : ℚ
  memory : ℚ
deriving DecidableEq

/-- Round half to even on rationals, as `np.around` applies to the virtual
index in `numpy.quantile(..., interpolation="nearest")`. -/
def roundHalfEven (x : ℚ) : ℤ :=
  if x - ⌊x⌋ < 1 / 2 then ⌊x⌋
  else if 1 / 2 < x - ⌊x⌋ then ⌊x⌋ + 1
  else if Even ⌊x⌋ then ⌊x⌋ else ⌊x⌋ + 1

/-- `numpy.quantile(l, q, interpolation="nearest")`: sort ascending, then
take the element at the rounded virtual index `q * (len - 1)`.  The fallback
`0` of `getD` is never reached for `0 ≤ q ≤ 1` on a non-empty list. -/
def npQuantileNearest (l : List ℚ) (q : ℚ) : ℚ :=
  (List.insertionSort (fun a b => a ≤ b) l).getD
    (roundHalfEven (q * ((l.length : ℚ) - 1))).toNat 0

/-- `avgs = [e / max(1, target) for (target, e) in pairs]` (line 1158).
A pair is `(observed resource, event count)`. -/
def rateList (pairs : List (ℚ × ℚ)) : List ℚ :=
  pairs.map (fun p => p.2 / max 1 p.1)

/-- `quantiles[0]`: the 25th percentile of the rates (the unused
`quantiles[2]` at 0.75 is not modelled). -/
def lowQuartileRate (pairs : List (ℚ × ℚ)) : ℚ :=
  npQuantileNearest (rateList pairs) (1 / 4)

/-- `quantiles[1]`: the median of the rates of ALL pairs (computed before
outlier filtering). -/
def medianRate (pairs : List (ℚ × ℚ)) : ℚ :=
  npQuantileNearest (rateList pairs) (1 / 2)

/-- Outlier removal (lines 1161-1165): keep `pairs[i]` whenever
`avgs[i] >= quantiles[0]`. -/
def pairsFiltered (pairs : List (ℚ × ℚ)) : List (ℚ × ℚ) :=
  ((pairs.zip (rateList pairs)).filter
    (fun pa => decide (lowQuartileRate pairs ≤ pa.2))).map Prod.fst

/-- `scipy.stats.linregress` in exact arithmetic.  `none` models a raised
exception (empty input, caught by the source's `except`) or a NaN
slope/intercept (zero variance in x, which includes a single point);
otherwise `some (slope, intercept)` of the least-squares line. -/
def linregress (ps : List (ℚ × ℚ)) : Option (ℚ × ℚ) :=
  if ps.length = 0 then none
  else
    let n : ℚ := ps.length
    let xbar := (ps.map Prod.fst).sum / n
    let ybar := (ps.map Prod.snd).sum / n
    let sxx := (ps.map (fun p => (p.1 - xbar) ^ 2)).sum
    let sxy := (ps.map (fun p => (p.1 - xbar) * (p.2 - ybar))).sum
    if sxx = 0 then none
    else some (sxy / sxx, ybar - sxy / sxx * xbar)

/-- The sanity-check condition of lines 1176-1182: the fit is discarded when
the slope is undefined/NaN (`none`), negative, or the intercept is
positive. -/
def regressionDiscarded (pairs : List (ℚ × ℚ)) : Bool :=
  match linregress (pairsFiltered pairs) with
  | none => true
  | some si => decide (si.1 < 0 ∨ 0 < si.2)

/-- `_compute_chunksize_target(target, pairs)` (lines 1153-1192). -/
def _compute_chunksize_target (target : ℚ) (pairs : List (ℚ × ℚ)) :
    Option ℚ :=
  if pairs.length < 1 ∨ (pairs.headD (0, 0)).1 < 0 then none
  else
    let si : ℚ × ℚ :=
      match linregress (pairsFiltered pairs) with
      | none => (medianRate pairs, 0)
      | some si =>
          if si.1 < 0 ∨ 0 < si.2 then (medianRate pairs, 0) else si
    some (si.1 * target + si.2)

/-- A `dynamic_chunksize` resource-target dictionary restricted to its two
legal keys.  For each key: `none` = key absent, `some none` = present with
value `None`, `some (some q)` = present with numeric value `q`. -/
structure RTargets where
  wall_time : Option (Option ℚ)
  memory : Option (Option ℚ)
deriving DecidableEq

/-- Python truthiness of a number-or-`None` value (`if target_time:`). -/
def pyTruthy : Option ℚ → Bool
  | none => false
  | some q => decide (q ≠ 0)

/-- `_compute_chunksize(base_chunksize, resource_targets, task_reports)`
(lines 1122-1150).  `.error` models the uncaught `KeyError` raised by
`resource_targets["memory"]` when the key is absent (the wall-time target
uses `.get` and cannot raise).  The final `int(...)` is `⌊·⌋`; the source's
`except ValueError` branch is unreachable in exact arithmetic (no NaN) and
is not modelled. -/
def _compute_chunksize (base_chunksize : ℚ)
    (resource_targets : Option RTargets) (task_reports : List TaskReport) :
    Except String ℤ :=
  let pre : Except String (Option ℚ × Option ℚ) :=
    match resource_targets with
    | none => .ok (none, none)
    | some rt =>
        if 1 < task_reports.length then
          let target_time := rt.wall_time.getD none
          let chunksize_time :=
            if pyTruthy target_time then
              _compute_chunksize_target (target_time.getD 0)
                (task_reports.map
                  (fun r => (r.wall_time, (r.events_count : ℚ))))
            else none
          match rt.memory with
          | none => .error "KeyError: memory"
          | some target_memory =>
              let chunksize_memory :=
                if pyTruthy target_memory then
                  _compute_chunksize_target (target_memory.getD 0)
                    (task_reports.map
                      (fun r => (r.memory, (r.events_count : ℚ))))
                else none
              .ok (chunksize_time, chunksize_memory)
        else .ok (none, none)
  match pre with
  | .error e => .error e
  | .ok (chunksize_time, chunksize_memory) =>
      let candidate_sizes :=
        (chunksize_time.toList ++ chunksize_memory.toList).filter
          (fun c => decide (c ≠ 0))
      let chunksize :=
        match candidate_sizes with
        | [] => base_chunksize
        | x :: xs => xs.foldl min x
      .ok ⌊_floor_to_pow2 chunksize⌋

/-- Claim-side recomposition for C3: the per-target candidate sizes that are
"produced" — the estimator is evaluated only for a present, truthy target,
and a `None` or zero estimate is not a candidate. -/
def specCandidates (resource_targets : Option RTargets)
    (task_reports : List TaskReport) : List ℚ :=
  match resource_targets with
  | none => []
  | some rt =>
      if 1 < task_reports.length then
        ((if pyTruthy (rt.wall_time.getD none) then
            _compute_chunksize_target ((rt.wall_time.getD none).getD 0)
              (task_reports.map (fun r => (r.wall_time, (r.events_count : ℚ))))
          else none).toList ++
          (if pyTruthy (rt.memory.getD none) then
            _compute_chunksize_target ((rt.memory.getD none).getD 0)
              (task_reports.map (fun r => (r.memory, (r.events_count : ℚ))))
          else none).toList).filter (fun c => decide (c ≠ 0))
      else []

/-- Claim-side recomposition for C3: minimum of the produced candidates when
any exists, otherwise the base chunk size; rounded down to a power of two in
both cases. -/
def specChunksize (base_chunksize : ℚ) (resource_targets : Option RTargets)
    (task_reports : List TaskReport) : ℤ :=
  ⌊_floor_to_pow2
    (match specCandidates resource_targets task_reports with
      | [] => base_chunksize
      | x :: xs => xs.foldl min x)⌋

/-! ## Task lifecycle: retries and splitting (source:
`CoffeaWQTask.__init__` lines 503-539, `CoffeaWQTask.resubmit` lines
592-615, `ProcCoffeaWQTask.clone`/`split` lines 785-831) -/

/-- The executor configuration fields the task lifecycle reads. -/
structure ExecCfg where
  retries : ℤ
  split_on_exhaustion : Bool
deriving DecidableEq

/-- A processing task reduced to its lifecycle-relevant state: item
identifier, covered range, retry budget. -/
structure PTask where
  itemid : String
  entrystart : ℕ
  entrystop : ℕ
  retriesToGo : ℤ
deriving DecidableEq

/-- Construction of a `ProcCoffeaWQTask`: `CoffeaWQTask.__init__` (line 521)
sets `self.retries_to_go = executor.retries` on every construction. -/
def mkProcTask (cfg : ExecCfg) (itemid : String) (a b : ℕ) : PTask :=
  ⟨itemid, a, b, cfg.retries⟩

/-- `ProcCoffeaWQTask.clone`: a fresh task over the same item and the SAME
`itemid` (the source passes `self.itemid` through), so the constructor resets
the budget to `executor.retries` until `resubmit` overwrites it. -/
def cloneTask (cfg : ExecCfg) (t : PTask) : PTask :=
  mkProcTask cfg t.itemid t.entrystart t.entrystop

/-- `ProcCoffeaWQTask.split` at the task level: each child range becomes a
task constructed fresh by `self.__class__(queue, self.infile_procc_fn, w)` —
with an auto-generated new itemid (abstracted as `"p_fresh"`; the global task
counter is not modelled) and hence `retries_to_go = executor.retries`. -/
def procSplitTasks (cfg : ExecCfg) (current_chunksize : ℕ) (t : PTask) :
    Option (List PTask) :=
  (procSplit current_chunksize t.entrystart t.entrystop).map
    (fun l => l.map (fun p => mkProcTask cfg "p_fresh" p.1 p.2))

/-- The fatal diagnostic raised by `CoffeaWQTask.resubmit`, naming the
item. -/
def fatalMsg (itemid : String) : String :=
  "item " ++ itemid ++ " failed permanently. No more retries left."

/-- `CoffeaWQTask.resubmit` (lines 592-615): raise when the budget is below 1
OR `split_on_exhaustion` is disabled; split when the failure is resource
exhaustion; otherwise clone and overwrite the clone's budget with
`self.retries_to_go - 1`.  Returns the tasks that get resubmitted. -/
def resubmit (cfg : ExecCfg) (exhausted : Bool) (current_chunksize : ℕ)
    (t : PTask) : Except String (List PTask) :=
  if t.retriesToGo < 1 ∨ cfg.split_on_exhaustion = false then
    .error (fatalMsg t.itemid)
  else if exhausted then
    match procSplitTasks cfg current_chunksize t with
    | some l => .ok l
    | none => .error "processing task cannot be split any further."
  else
    .ok [{ cloneTask cfg t with retriesToGo := t.retriesToGo - 1 }]

/-- The surviving task after `k` successive transient (non-exhaustion)
failures, each handled by `resubmit`; `.error` once a failure raises.  The
transient branch always resubmits exactly one clone, projected out with
`headD`. -/
def afterTransientFailures (cfg : ExecCfg) (t : PTask) :
    ℕ → Except String PTask
  | 0 => .ok t
  | k + 1 =>
      match afterTransientFailures cfg t k with
      | .error e => .error e
      | .ok t2 =>
          match resubmit cfg false 1 t2 with
          | .error e => .error e
          | .ok l => .ok (l.headD t2)

/-! # Theorems -/

/-! ## Helper lemmas about `Stats` -/

theorem insertPair_lookup (k k' : String) (v : ℚ) (l : List (String × ℚ)) :
    List.lookup k' (insertPair k v l) =
      if k' = k then some v else List.lookup k' l := by
  induction l with
  | nil =>
      rcases eq_or_ne k' k with h | h
      · subst h; simp [insertPair, List.lookup]
      · simp [insertPair, List.lookup, h, beq_eq_false_iff_ne.mpr h]
  | cons hd tl ih =>
      obtain ⟨k0, v0⟩ := hd
      rcases eq_or_ne k k0 with hk | hk
      · subst hk
        rcases eq_or_ne k' k with h | h
        · subst h; simp [insertPair, List.lookup]
        · simp [insertPair, List.lookup, h, beq_eq_false_iff_ne.mpr h]
      · rcases eq_or_ne k' k0 with h' | h'
        · subst h'
          have hne : k' ≠ k := fun h => hk (h ▸ rfl)
          simp [insertPair, List.lookup, beq_eq_false_iff_ne.mpr hk, hne,
            beq_eq_false_iff_ne.mpr hne]
        · simp [insertPair, List.lookup, beq_eq_false_iff_ne.mpr hk,
            beq_eq_false_iff_ne.mpr h', ih]

theorem Stats.lookup_set (s : Stats) (k k' : String) (v : ℚ) :
    (s.set k v).lookup k' = if k' = k then some v else s.lookup k' := by
  simp [Stats.set, Stats.lookup, insertPair_lookup]

theorem Stats.get_fst (s : Stats) (k : String) (d : Option ℚ) :
    (s.get k d).1 = lookupD s k := by
  cases h : s.lookup k <;> simp [Stats.get, Stats.setdefault, lookupD, h]

theorem Stats.get_snd_lookupD (s : Stats) (k : String) (d : Option ℚ)
    (k' : String) : lookupD (s.get k d).2 k' = lookupD s k' := by
  cases h : s.lookup k with
  | some v => simp [Stats.get, Stats.setdefault, h]
  | none =>
      by_cases hk : k' = k
      · subst hk
        simp [Stats.get, Stats.setdefault, h, lookupD, Stats.lookup_set]
      · simp [Stats.get, Stats.setdefault, h, lookupD, Stats.lookup_set, hk]

/-- Claim C10: `Stats.get` returns the stored value when the key is present;
when the key is absent it returns `0` regardless of the supplied default and,
as a side effect, inserts the entry `k → 0` into the mapping. -/
theorem stats_get_spec (s : Stats) (k : String) (d : Option ℚ) :
    (∀ v, s.lookup k = some v → s.get k d = (v, s)) ∧
    (s.lookup k = none → s.get k d = (0, s.set k 0)) := by
  constructor
  · intro v hv
    simp [Stats.get, Stats.setdefault, hv]
  · intro hn
    simp [Stats.get, Stats.setdefault, hn]

/-- Witness for C10, at a concrete mapping missing the requested key and with
a non-zero supplied default, which is ignored. -/
theorem stats_get_spec_witness :
    (Stats.mk [("events_total", 10)]).get "events_queued" (some 7) =
      (0, (Stats.mk [("events_total", 10)]).set "events_queued" 0) :=
  (stats_get_spec (Stats.mk [("events_total", 10)]) "events_queued"
    (some 7)).2 (by decide)

/-- Claim C8: the force-flush flag computed at the top of
`_submit_accum_tasks` (through the dead first assignment, the overwrite by
`early_terminate`, and the in-place `|=`) equals the plain disjunction
`(events_processed >= events_total) or early_terminate`, for every state of
the counters and of the cancellation flag. -/
theorem force_flush_equiv (s : Stats) (early_terminate : Bool) :
    (forceFlush s early_terminate).1 =
      ((decide (lookupD s "events_total" ≤ lookupD s "events_processed")) ||
        early_terminate) := by
  show (early_terminate || _) = _
  simp only [Stats.get_fst, Stats.get_snd_lookupD]
  rw [Bool.or_comm]

/-! ## Claim C9: `_floor_to_pow2` -/

/-- Claim C9: for every `x ≥ 1`, `_floor_to_pow2 x` is the largest power of
two that is `≤ x`; for every `x < 1` it returns `1`. -/
theorem floor_to_pow2_spec (x : ℚ) :
    (1 ≤ x →
      (∃ k : ℕ, _floor_to_pow2 x = 2 ^ k) ∧
      _floor_to_pow2 x ≤ x ∧
      (∀ k : ℕ, (2 : ℚ) ^ k ≤ x → (2 : ℚ) ^ k ≤ _floor_to_pow2 x)) ∧
    (x < 1 → _floor_to_pow2 x = 1) := by
  constructor
  · intro hx
    have hnlt : ¬ x < 1 := not_lt.2 hx
    have hfl : (1 : ℤ) ≤ ⌊x⌋ := Int.le_floor.2 (by exact_mod_cast hx)
    set m : ℕ := Int.toNat ⌊x⌋ with hm
    have hm1 : 1 ≤ m := by omega
    have hm0 : m ≠ 0 := by omega
    have hcast : (m : ℤ) = ⌊x⌋ := Int.toNat_of_nonneg (by omega)
    have hmx : (m : ℚ) ≤ x := by
      have h1 : ((m : ℤ) : ℚ) ≤ x := by
        rw [hcast]; exact Int.floor_le x
      exact_mod_cast h1
    refine ⟨⟨Nat.log 2 m, by simp [_floor_to_pow2, hnlt]⟩, ?_, ?_⟩
    · have hle : 2 ^ Nat.log 2 m ≤ m := Nat.pow_log_le_self 2 hm0
      have hle' : ((2 ^ Nat.log 2 m : ℕ) : ℚ) ≤ (m : ℚ) := by exact_mod_cast hle
      calc _floor_to_pow2 x = (2 : ℚ) ^ Nat.log 2 m := by
            simp [_floor_to_pow2, hnlt]
        _ ≤ (m : ℚ) := by push_cast at hle' ⊢; exact hle'
        _ ≤ x := hmx
    · intro k hk
      have hkZ : ((2 ^ k : ℤ) : ℚ) ≤ x := by push_cast; exact_mod_cast hk
      have hkfl : (2 ^ k : ℤ) ≤ ⌊x⌋ := Int.le_floor.2 hkZ
      have hkm : 2 ^ k ≤ m := by
        have h2 : (2 ^ k : ℤ) ≤ (m : ℤ) := by rw [hcast]; exact hkfl
        exact_mod_cast h2
      have hklog : k ≤ Nat.log 2 m :=
        (Nat.pow_le_iff_le_log (by norm_num) hm0).1 hkm
      have hpow : (2 : ℕ) ^ k ≤ 2 ^ Nat.log 2 m :=
        Nat.pow_le_pow_right (by norm_num) hklog
      have : ((2 : ℚ)) ^ k ≤ (2 : ℚ) ^ Nat.log 2 m := by
        exact_mod_cast hpow
      simpa [_floor_to_pow2, hnlt] using this
  · intro hx
    simp [_floor_to_pow2, hx]

/-- Witness for C9 at `x = 6`: its rounded value is a power of two, is at
most `6`, and dominates every power of two that is at most `6`. -/
theorem floor_to_pow2_spec_witness :
    (∃ k : ℕ, _floor_to_pow2 6 = 2 ^ k) ∧
    _floor_to_pow2 6 ≤ 6 ∧
    (∀ k : ℕ, (2 : ℚ) ^ k ≤ 6 → (2 : ℚ) ^ k ≤ _floor_to_pow2 6) :=
  (floor_to_pow2_spec 6).1 (by norm_num)

/-! ## Helper lemmas about `ceilDiv` -/

theorem ceilDiv_le_iff (a n : ℕ) {b : ℕ} (hb : 0 < b) :
    ceilDiv a b ≤ n ↔ a ≤ n * b := by
  rw [ceilDiv, Nat.div_le_iff_le_mul_add_pred hb, Nat.mul_comm n b]
  generalize b * n = m
  omega

theorem le_ceilDiv_mul (a : ℕ) {b : ℕ} (hb : 0 < b) : a ≤ ceilDiv a b * b :=
  (ceilDiv_le_iff a (ceilDiv a b) hb).1 le_rfl

theorem ceilDiv_pos {a b : ℕ} (ha : 0 < a) (hb : 0 < b) : 0 < ceilDiv a b := by
  rcases Nat.eq_zero_or_pos (ceilDiv a b) with h | h
  · exfalso
    have := (ceilDiv_le_iff a 0 hb).1 (le_of_eq h)
    omega
  · exact h

theorem ceilDiv_antitone {a : ℕ} {b c : ℕ} (hb : 0 < b) (hbc : b ≤ c) :
    ceilDiv a c ≤ ceilDiv a b := by
  have hc : 0 < c := lt_of_lt_of_le hb hbc
  rw [ceilDiv_le_iff a _ hc]
  exact (le_ceilDiv_mul a hb).trans (Nat.mul_le_mul_left _ hbc)

theorem ceilDiv_ceilDiv_le {t c : ℕ} (ht : 0 < t) (hc : 0 < c) :
    ceilDiv t (ceilDiv t c) ≤ c := by
  have h1 : 0 < ceilDiv t c := ceilDiv_pos ht hc
  rw [ceilDiv_le_iff t c h1, Nat.mul_comm]
  exact le_ceilDiv_mul t hc

theorem ceilDiv_triple {t c : ℕ} (ht : 0 < t) (hc : 0 < c) :
    ceilDiv t (ceilDiv t (ceilDiv t c)) = ceilDiv t c := by
  have h1 : 0 < ceilDiv t c := ceilDiv_pos ht hc
  have h2 : 0 < ceilDiv t (ceilDiv t c) := ceilDiv_pos ht h1
  exact Nat.le_antisymm (ceilDiv_ceilDiv_le ht h1)
    (ceilDiv_antitone h2 (ceilDiv_ceilDiv_le ht hc))

/-! ## Helper lemmas about `splitRanges` -/

theorem splitRanges_eq_nil {stop actual start : ℕ}
    (h : ¬ (start < stop ∧ 0 < actual)) : splitRanges stop actual start = [] := by
  rw [splitRanges, dif_neg h]

theorem splitRanges_cons {stop actual start : ℕ} (h1 : start < stop)
    (h2 : 0 < actual) :
    splitRanges stop actual start =
      (start, min stop (start + actual)) ::
        splitRanges stop actual (min stop (start + actual)) := by
  conv_lhs => rw [splitRanges]
  rw [dif_pos ⟨h1, h2⟩]

theorem splitRanges_ne_nil_imp {stop actual start : ℕ}
    (h : splitRanges stop actual start ≠ []) : start < stop ∧ 0 < actual := by
  by_contra hc
  exact h (splitRanges_eq_nil hc)

theorem splitRanges_length (stop actual : ℕ) (ha : 0 < actual) (start : ℕ) :
    (splitRanges stop actual start).length = ceilDiv (stop - start) actual := by
  have H : ∀ f s, stop - s ≤ f →
      (splitRanges stop actual s).length = ceilDiv (stop - s) actual := by
    intro f
    induction f with
    | zero =>
        intro s h
        have hns : ¬ s < stop := by omega
        rw [splitRanges_eq_nil (fun hh => hns hh.1)]
        have h0 : stop - s = 0 := by omega
        rw [h0, List.length_nil, ceilDiv, Nat.div_eq_of_lt (by omega)]
    | succ f ih =>
        intro s h
        by_cases hs : s < stop
        · rw [splitRanges_cons hs ha, List.length_cons]
          rcases le_or_lt stop (s + actual) with hm | hm
          · have hdr : (stop - s + actual - 1) / actual = 1 :=
              Nat.div_eq_of_lt_le (by omega) (by omega)
            rw [Nat.min_eq_left hm,
              splitRanges_eq_nil (fun hh => absurd hh.1 (lt_irrefl _)),
              List.length_nil, ceilDiv, hdr]
          · rw [Nat.min_eq_right (le_of_lt hm), ih (s + actual) (by omega),
              ceilDiv, ceilDiv]
            have e1 : stop - s + actual - 1 = (stop - s - 1 - actual) + actual + actual := by
              omega
            have e2 : stop - (s + actual) + actual - 1 =
                (stop - s - 1 - actual) + actual := by omega
            rw [e1, e2, Nat.add_div_right _ ha, Nat.add_div_right _ ha,
              Nat.add_div_right _ ha]
        · rw [splitRanges_eq_nil (fun hh => hs hh.1)]
          have h0 : stop - s = 0 := by omega
          rw [h0, List.length_nil, ceilDiv, Nat.div_eq_of_lt (by omega)]
  exact H (stop - start) start le_rfl

theorem splitRanges_union (stop actual : ℕ) (ha : 0 < actual) (start : ℕ)
    (hss : start ≤ stop) (x : ℕ) :
    (start ≤ x ∧ x < stop) ↔
      ∃ p ∈ splitRanges stop actual start, p.1 ≤ x ∧ x < p.2 := by
  have H : ∀ f s, stop - s ≤ f → s ≤ stop →
      ((s ≤ x ∧ x < stop) ↔
        ∃ p ∈ splitRanges stop actual s, p.1 ≤ x ∧ x < p.2) := by
    intro f
    induction f with
    | zero =>
        intro s h hle
        have hse : s = stop := by omega
        subst hse
        rw [splitRanges_eq_nil (fun hh => absurd hh.1 (lt_irrefl _))]
        constructor
        · rintro ⟨h1, h2⟩
          omega
        · rintro ⟨p, hp, hpx⟩
          exact absurd hp (List.not_mem_nil p)
    | succ f ih =>
        intro s h hle
        by_cases hs : s < stop
        · rw [splitRanges_cons hs ha]
          set m := min stop (s + actual) with hm
          have hm1 : s < m := by omega
          have hm2 : m ≤ stop := by omega
          have hrec := ih m (by omega) hm2
          constructor
          · rintro ⟨hx1, hx2⟩
            by_cases hxm : x < m
            · exact ⟨(s, m), List.mem_cons_self _ _, hx1, hxm⟩
            · obtain ⟨p, hp, hpx⟩ := hrec.1 ⟨by omega, hx2⟩
              exact ⟨p, List.mem_cons_of_mem _ hp, hpx⟩
          · rintro ⟨p, hp, hpx⟩
            rcases List.mem_cons.1 hp with hph | hpt
            · rw [hph] at hpx
              exact ⟨hpx.1, lt_of_lt_of_le hpx.2 hm2⟩
            · have h2 := hrec.2 ⟨p, hpt, hpx⟩
              exact ⟨by omega, h2.2⟩
        · have hse : s = stop := by omega
          subst hse
          rw [splitRanges_eq_nil (fun hh => absurd hh.1 (lt_irrefl _))]
          constructor
          · rintro ⟨h1, h2⟩
            omega
          · rintro ⟨p, hp, hpx⟩
            exact absurd hp (List.not_mem_nil p)
  exact H (stop - start) start le_rfl hss

theorem splitRanges_bounds (stop actual : ℕ) (ha : 0 < actual) (start : ℕ) :
    List.Pairwise (fun p q : ℕ × ℕ => p.2 ≤ q.1) (splitRanges stop actual start) ∧
    ∀ p ∈ splitRanges stop actual start, start ≤ p.1 ∧ p.1 < p.2 ∧ p.2 ≤ stop := by
  have H : ∀ f s, stop - s ≤ f →
      List.Pairwise (fun p q : ℕ × ℕ => p.2 ≤ q.1) (splitRanges stop actual s) ∧
      ∀ p ∈ splitRanges stop actual s, s ≤ p.1 ∧ p.1 < p.2 ∧ p.2 ≤ stop := by
    intro f
    induction f with
    | zero =>
        intro s h
        have hns : ¬ s < stop := by omega
        rw [splitRanges_eq_nil (fun hh => hns hh.1)]
        exact ⟨List.Pairwise.nil, by simp⟩
    | succ f ih =>
        intro s h
        by_cases hs : s < stop
        · rw [splitRanges_cons hs ha]
          set m := min stop (s + actual) with hm
          have hm1 : s < m := by omega
          have hm2 : m ≤ stop := by omega
          obtain ⟨hpw, hbd⟩ := ih m (by omega)
          refine ⟨List.pairwise_cons.2 ⟨fun q hq => (hbd q hq).1, hpw⟩, ?_⟩
          intro p hp
          rcases List.mem_cons.1 hp with hph | hpt
          · rw [hph]
            exact ⟨le_rfl, hm1, hm2⟩
          · have hb := hbd p hpt
            exact ⟨by omega, hb.2.1, hb.2.2⟩
        · rw [splitRanges_eq_nil (fun hh => hs hh.1)]
          exact ⟨List.Pairwise.nil, by simp⟩
  exact H (stop - start) start le_rfl

theorem splitRanges_sizes (stop actual : ℕ) (ha : 0 < actual) (start : ℕ) :
    ∀ p ∈ (splitRanges stop actual start).dropLast, p.2 = p.1 + actual := by
  have H : ∀ f s, stop - s ≤ f →
      ∀ p ∈ (splitRanges stop actual s).dropLast, p.2 = p.1 + actual := by
    intro f
    induction f with
    | zero =>
        intro s h
        have hns : ¬ s < stop := by omega
        rw [splitRanges_eq_nil (fun hh => hns hh.1)]
        simp
    | succ f ih =>
        intro s h
        by_cases hs : s < stop
        · rw [splitRanges_cons hs ha]
          by_cases hrest : splitRanges stop actual (min stop (s + actual)) = []
          · rw [hrest]
            simp
          · have hlt := splitRanges_ne_nil_imp hrest
            have hmin : min stop (s + actual) = s + actual := by omega
            rw [List.dropLast_cons_of_ne_nil hrest]
            intro p hp
            rcases List.mem_cons.1 hp with hph | hpt
            · rw [hph, hmin]
            · exact ih (min stop (s + actual)) (by omega) p hpt
        · rw [splitRanges_eq_nil (fun hh => hs hh.1)]
          simp
  exact H (stop - start) start le_rfl

/-- Claim C2: splitting a processing task covering `[a, b)` with `b - a ≥ 2`
and a positive controller chunk size yields children that are pairwise
disjoint, cover exactly `[a, b)`, number `ceil((b-a)/c)` where `c` is the
controller's size when strictly below `b - a` and `ceil((b-a)/2)` otherwise,
and all but possibly the last cover exactly `ceil((b-a)/ceil((b-a)/c))`
events. -/
theorem proc_split_spec (current_chunksize a b : ℕ)
    (hc : 1 ≤ current_chunksize) (hab : 2 ≤ b - a) :
    ∃ L, procSplit current_chunksize a b = some L ∧
      L.length = ceilDiv (b - a)
        (if current_chunksize < b - a then current_chunksize
          else ceilDiv (b - a) 2) ∧
      List.Pairwise (fun p q : ℕ × ℕ => p.2 ≤ q.1) L ∧
      (∀ x : ℕ, (a ≤ x ∧ x < b) ↔ ∃ p ∈ L, p.1 ≤ x ∧ x < p.2) ∧
      (∀ p ∈ L.dropLast, p.2 - p.1 = ceilDiv (b - a)
        (ceilDiv (b - a)
          (if current_chunksize < b - a then current_chunksize
            else ceilDiv (b - a) 2))) := by
  have ht : 0 < b - a := by omega
  -- the claim's effective target size coincides with the code's
  have htc : (if b - a ≤ current_chunksize then ceilDiv (b - a) 2
      else current_chunksize) =
      (if current_chunksize < b - a then current_chunksize
        else ceilDiv (b - a) 2) := by
    rcases lt_or_ge current_chunksize (b - a) with h | h
    · rw [if_neg (by omega), if_pos h]
    · rw [if_pos h, if_neg (by omega)]
  set c := if current_chunksize < b - a then current_chunksize
    else ceilDiv (b - a) 2 with hcdef
  have hc0 : 0 < c := by
    rw [hcdef]
    split
    · omega
    · exact ceilDiv_pos ht (by omega)
  have hn0 : 0 < ceilDiv (b - a) c := ceilDiv_pos ht hc0
  have hmax : max (ceilDiv (b - a) c) 1 = ceilDiv (b - a) c := by omega
  have hact : 0 < ceilDiv (b - a) (ceilDiv (b - a) c) := ceilDiv_pos ht hn0
  refine ⟨splitRanges b (ceilDiv (b - a) (ceilDiv (b - a) c)) a, ?_, ?_, ?_, ?_, ?_⟩
  · rw [procSplit]
    simp only [htc]
    rw [if_neg (by omega), hmax]
  · rw [splitRanges_length _ _ hact]
    exact ceilDiv_triple ht hc0
  · exact (splitRanges_bounds b _ hact a).1
  · exact fun x => splitRanges_union b _ hact a (by omega) x
  · intro p hp
    rw [splitRanges_sizes b _ hact a p hp]
    omega

/-- Witness for C2 on the concrete task range `[0, 10)` with controller
chunk size `4`. -/
theorem proc_split_spec_witness :
    ∃ L, procSplit 4 0 10 = some L ∧
      L.length = ceilDiv (10 - 0) (if 4 < 10 - 0 then 4 else ceilDiv (10 - 0) 2) ∧
      List.Pairwise (fun p q : ℕ × ℕ => p.2 ≤ q.1) L ∧
      (∀ x : ℕ, (0 ≤ x ∧ x < 10) ↔ ∃ p ∈ L, p.1 ≤ x ∧ x < p.2) ∧
      (∀ p ∈ L.dropLast, p.2 - p.1 = ceilDiv (10 - 0)
        (ceilDiv (10 - 0) (if 4 < 10 - 0 then 4 else ceilDiv (10 - 0) 2))) :=
  proc_split_spec 4 0 10 (by norm_num) (by norm_num)

/-- Claim C1 (failing evaluation): four staged tasks, `chunks_per_accum = 2`,
no force flush.  The buffer guard passes (`4 ≥ 2*2 - 1`), both groups of two
are emitted as accumulation tasks, the loop never hits a short group, and the
retained pending list is the WHOLE sorted list — all four already-consumed
tasks stay staged, not "the final under-full group, or empty" as the claim
requires.  A later invocation regroups them, making them children of a second
accumulation task. -/
theorem submit_accum_tasks_retains_emitted :
    submitAccumTasks 2 false [(0, (1 : ℚ)), (1, 2), (2, 3), (3, 4)] =
      ([[(0, 1), (1, 2)], [(2, 3), (3, 4)]],
        [(0, 1), (1, 2), (2, 3), (3, 4)]) := by
  have hsort : List.insertionSort (fun a b : ℕ × ℚ => a.2 ≤ b.2)
      [(0, (1 : ℚ)), (1, 2), (2, 3), (3, 4)] =
      [(0, 1), (1, 2), (2, 3), (3, 4)] := by
    norm_num [List.insertionSort, List.orderedInsert]
  have hgrp : groupLst 2 [(0, (1 : ℚ)), (1, 2), (2, 3), (3, 4)] =
      [[(0, 1), (1, 2)], [(2, 3), (3, 4)]] := by
    rw [groupLst, groupLst, groupLst]
    simp
  rw [submitAccumTasks, if_neg (by norm_num)]
  rw [hsort]
  norm_num [hgrp, accumLoop]

/-! ## Claims C5, C6, C3: the chunk-size estimator -/

theorem getD_zero_nonneg (l : List ℚ) (n : ℕ) (h : ∀ y ∈ l, 0 ≤ y) :
    0 ≤ l.getD n 0 := by
  rw [List.getD_eq_getElem?_getD]
  cases hg : l[n]? with
  | none => simp
  | some y =>
      have hy := h y (List.getElem?_mem hg)
      simpa using hy

theorem rateList_nonneg (pairs : List (ℚ × ℚ)) (h : ∀ p ∈ pairs, 0 ≤ p.2) :
    ∀ y ∈ rateList pairs, 0 ≤ y := by
  intro y hy
  obtain ⟨p, hp, rfl⟩ := List.mem_map.1 hy
  exact div_nonneg (h p hp) (le_trans zero_le_one (le_max_left 1 p.1))

theorem npQuantileNearest_nonneg (l : List ℚ) (q : ℚ)
    (h : ∀ y ∈ l, 0 ≤ y) : 0 ≤ npQuantileNearest l q := by
  rw [npQuantileNearest]
  refine getD_zero_nonneg _ _ ?_
  intro y hy
  exact h y ((List.perm_insertionSort (fun a b => a ≤ b) l).mem_iff.1 hy)

/-- Claim C6 (amended: the nonnegativity holds for a nonnegative target
budget): whenever the linear regression over the outlier-filtered pairs is
discarded (undefined/NaN slope, negative slope, or positive intercept),
`_compute_chunksize_target` returns `median_rate * target + 0`, where
`median_rate` is the nearest-index median of the per-pair rates
`events / max(1, resource)`; for event counts `≥ 0` and a target `≥ 0` the
returned candidate is nonnegative. -/
theorem compute_chunksize_target_fallback (target : ℚ)
    (pairs : List (ℚ × ℚ)) (hne : pairs ≠ [])
    (hhead : 0 ≤ (pairs.headD (0, 0)).1)
    (hdisc : regressionDiscarded pairs = true)
    (hT : 0 ≤ target) (hev : ∀ p ∈ pairs, 0 ≤ p.2) :
    _compute_chunksize_target target pairs =
      some (medianRate pairs * target + 0) ∧
    0 ≤ medianRate pairs * target + 0 := by
  have hlen : ¬ (pairs.length < 1 ∨ (pairs.headD (0, 0)).1 < 0) := by
    push_neg
    exact ⟨by have := List.length_pos.2 hne; omega, hhead⟩
  constructor
  · rw [_compute_chunksize_target, if_neg hlen]
    cases hfit : linregress (pairsFiltered pairs) with
    | none => simp [hfit]
    | some si =>
        have hsi : si.1 < 0 ∨ 0 < si.2 := by
          have := hdisc
          rw [regressionDiscarded, hfit] at this
          exact of_decide_eq_true this
        simp [hfit, if_pos hsi]
  · have hmed : 0 ≤ medianRate pairs :=
      npQuantileNearest_nonneg _ _ (rateList_nonneg pairs hev)
    rw [add_zero]
    exact mul_nonneg hmed hT

/-- Counterexample for C6 as stated: with target `-1` (the claim quantifies
over every target value) and rate data that defeats the regression (zero
variance, NaN slope), the fallback produces the NEGATIVE candidate
`median * (-1) = -1`, refuting "the returned candidate is never
negative". -/
theorem compute_chunksize_target_negative_cex :
    _compute_chunksize_target (-1) [((1 : ℚ), (1 : ℚ)), (1, 1)] =
      some (-1) ∧ ((-1 : ℚ) < 0) := by
  constructor
  · norm_num [_compute_chunksize_target, linregress, pairsFiltered,
      rateList, lowQuartileRate, medianRate, npQuantileNearest,
      roundHalfEven, List.insertionSort, List.orderedInsert]
  · norm_num

/-- Witness for C6 at target `2` over the same degenerate rate data. -/
theorem compute_chunksize_target_fallback_witness :
    _compute_chunksize_target 2 [((1 : ℚ), (1 : ℚ)), (1, 1)] =
      some (medianRate [((1 : ℚ), (1 : ℚ)), (1, 1)] * 2 + 0) ∧
    0 ≤ medianRate [((1 : ℚ), (1 : ℚ)), (1, 1)] * 2 + 0 :=
  compute_chunksize_target_fallback 2 [((1 : ℚ), (1 : ℚ)), (1, 1)]
    (by simp)
    (by norm_num)
    (by norm_num [regressionDiscarded, linregress, pairsFiltered, rateList,
      lowQuartileRate, npQuantileNearest, roundHalfEven,
      List.insertionSort, List.orderedInsert])
    (by norm_num)
    (by intro p hp; rcases List.mem_cons.1 hp with h | h
        · rw [h]; norm_num
        · rcases List.mem_cons.1 h with h2 | h2
          · rw [h2]; norm_num
          · exact absurd h2 (List.not_mem_nil p))

/-- Claim C3 (amended: provided the mapping defines the `memory` key whenever
the targets branch is reached — with the key absent the source raises
`KeyError`, see the counterexample): `_compute_chunksize` returns the minimum
of the produced per-target candidates when at least one is produced, the base
chunk size when none is produced (in particular whenever fewer than two task
reports exist), and in both cases the result is rounded down to the nearest
power of two. -/
theorem compute_chunksize_min_base (base_chunksize : ℚ)
    (resource_targets : Option RTargets) (task_reports : List TaskReport)
    (hKey : ∀ rt, resource_targets = some rt → 1 < task_reports.length →
      rt.memory.isSome = true) :
    _compute_chunksize base_chunksize resource_targets task_reports =
      .ok (specChunksize base_chunksize resource_targets task_reports) ∧
    (task_reports.length < 2 →
      specChunksize base_chunksize resource_targets task_reports =
        ⌊_floor_to_pow2 base_chunksize⌋) := by
  constructor
  · cases resource_targets with
    | none => rfl
    | some rt =>
        by_cases hlen : 1 < task_reports.length
        · have hmem := hKey rt rfl hlen
          obtain ⟨tm, htm⟩ := Option.isSome_iff_exists.1 hmem
          simp [_compute_chunksize, specChunksize, specCandidates, hlen, htm]
        · simp [_compute_chunksize, specChunksize, specCandidates, hlen]
  · intro hsmall
    cases resource_targets with
    | none => rfl
    | some rt =>
        have hlen : ¬ 1 < task_reports.length := by omega
        simp [specChunksize, specCandidates, hlen]

/-- Counterexample for C3 as stated: for the resource-target mapping that
defines only `wall_time` (and two task reports), `_compute_chunksize` raises
`KeyError` instead of returning a rounded candidate or the base size. -/
theorem compute_chunksize_keyerror_cex :
    _compute_chunksize 100 (some ⟨some (some 60), none⟩)
      [⟨1, 1, 1⟩, ⟨1, 1, 1⟩] = .error "KeyError: memory" := rfl

/-- Witness for C3 at a mapping with `wall_time = 30` and `memory = None`
(present but null) and two reports. -/
theorem compute_chunksize_min_base_witness :
    _compute_chunksize 100 (some (RTargets.mk (some (some 30)) (some none)))
      [⟨1, 1, 1⟩, ⟨1, 1, 1⟩] =
      .ok (specChunksize 100
        (some (RTargets.mk (some (some 30)) (some none)))
        [⟨1, 1, 1⟩, ⟨1, 1, 1⟩]) ∧
    (([⟨1, 1, 1⟩, ⟨1, 1, 1⟩] : List TaskReport).length < 2 →
      specChunksize 100 (some (RTargets.mk (some (some 30)) (some none)))
        [⟨1, 1, 1⟩, ⟨1, 1, 1⟩] = ⌊_floor_to_pow2 100⌋) :=
  compute_chunksize_min_base 100
    (some (RTargets.mk (some (some 30)) (some none))) [⟨1, 1, 1⟩, ⟨1, 1, 1⟩]
    (by intro rt h hl; injection h with h2; subst h2; rfl)

/-- Claim C5 (failing evaluation): a mapping that requests only a wall-time
budget (the `memory` key absent) makes `_compute_chunksize` raise `KeyError`
at `resource_targets["memory"]` rather than return normally; the wall-time
key, read through `.get("wall_time", None)`, can never raise. -/
theorem compute_chunksize_memory_only_raises :
    _compute_chunksize 99 (some ⟨some (some 30), none⟩)
      [⟨2, 1, 1⟩, ⟨4, 2, 2⟩] = .error "KeyError: memory" := rfl

/-! ## Claims C4 and C7: retry budgets -/

theorem resubmit_transient_ok (cfg : ExecCfg) (c : ℕ) (t : PTask)
    (hflag : cfg.split_on_exhaustion = true) (hb : 1 ≤ t.retriesToGo) :
    resubmit cfg false c t =
      .ok [{ cloneTask cfg t with retriesToGo := t.retriesToGo - 1 }] := by
  have hcond : ¬ (t.retriesToGo < 1 ∨ cfg.split_on_exhaustion = false) := by
    push_neg
    exact ⟨by omega, by simp [hflag]⟩
  rw [resubmit, if_neg hcond]
  simp

/-- Claim C4 (amended: assuming the executor's `split_on_exhaustion` option
is enabled — when it is disabled the guard at line 593 makes the very first
failure fatal, see the counterexample): a fresh task with retry budget `r`
that keeps failing transiently is cloned with the budget decremented and
resubmitted on each of the first `r` failures, and the `(r+1)`-th failure
raises the fatal error naming the item, never before. -/
theorem resubmit_budget_spec (cfg : ExecCfg) (itemid : String) (a b : ℕ)
    (hflag : cfg.split_on_exhaustion = true) (hr : 0 ≤ cfg.retries) :
    (∀ k : ℕ, (k : ℤ) ≤ cfg.retries →
      afterTransientFailures cfg (mkProcTask cfg itemid a b) k =
        .ok ⟨itemid, a, b, cfg.retries - (k : ℤ)⟩) ∧
    afterTransientFailures cfg (mkProcTask cfg itemid a b)
      (cfg.retries.toNat + 1) = .error (fatalMsg itemid) := by
  have main : ∀ k : ℕ, (k : ℤ) ≤ cfg.retries →
      afterTransientFailures cfg (mkProcTask cfg itemid a b) k =
        .ok ⟨itemid, a, b, cfg.retries - (k : ℤ)⟩ := by
    intro k
    induction k with
    | zero =>
        intro hk
        simp [afterTransientFailures, mkProcTask]
    | succ k ih =>
        intro hk
        have hk' : (k : ℤ) ≤ cfg.retries := by push_cast at hk; omega
        have hb : 1 ≤ (PTask.mk itemid a b (cfg.retries - (k : ℤ))).retriesToGo := by
          show 1 ≤ cfg.retries - (k : ℤ)
          push_cast at hk
          omega
        have hstep := resubmit_transient_ok cfg 1
          ⟨itemid, a, b, cfg.retries - (k : ℤ)⟩ hflag hb
        simp only [afterTransientFailures]
        rw [ih hk']
        simp [hstep, cloneTask, mkProcTask, sub_sub]
  refine ⟨main, ?_⟩
  have hcast : ((cfg.retries.toNat : ℤ)) = cfg.retries := Int.toNat_of_nonneg hr
  have h0 := main cfg.retries.toNat (le_of_eq hcast)
  rw [hcast, sub_self] at h0
  simp only [afterTransientFailures]
  rw [h0]
  simp [resubmit, fatalMsg]

/-- Witness for C4 with initial budget 3: each of the first 3 transient
failures resubmits, the 4th raises the fatal error naming item `p_1`. -/
theorem resubmit_budget_spec_witness :
    (∀ k : ℕ, (k : ℤ) ≤ (ExecCfg.mk 3 true).retries →
      afterTransientFailures (ExecCfg.mk 3 true)
        (mkProcTask (ExecCfg.mk 3 true) "p_1" 0 10) k =
        .ok ⟨"p_1", 0, 10, (ExecCfg.mk 3 true).retries - (k : ℤ)⟩) ∧
    afterTransientFailures (ExecCfg.mk 3 true)
      (mkProcTask (ExecCfg.mk 3 true) "p_1" 0 10)
      ((ExecCfg.mk 3 true).retries.toNat + 1) = .error (fatalMsg "p_1") :=
  resubmit_budget_spec (ExecCfg.mk 3 true) "p_1" 0 10 rfl (by norm_num)

/-- Counterexample for C4 as stated: with `split_on_exhaustion = False` the
guard `if self.retries_to_go < 1 or not queue.executor.split_on_exhaustion`
raises "No more retries left" on the VERY FIRST transient failure of a task
whose budget is still 3, contradicting "resubmits on each of the first r
failures ... never before". -/
theorem resubmit_budget_cex :
    afterTransientFailures (ExecCfg.mk 3 false)
      (mkProcTask (ExecCfg.mk 3 false) "p_1" 0 10) 1 =
      .error (fatalMsg "p_1") := rfl

/-- Claim C7 (amended: every split child carries the executor's configured
initial retry budget — which equals the parent's budget only when the parent
has not itself been produced by a budget-decrementing clone — and a plain
retry (clone) is the only operation that decrements the budget, by one): the
budgets of split children and of resubmitted clones. -/
theorem split_budget_spec (cfg : ExecCfg) (current_chunksize : ℕ)
    (t : PTask) :
    (∀ l, procSplitTasks cfg current_chunksize t = some l →
      ∀ c ∈ l, c.retriesToGo = cfg.retries) ∧
    (1 ≤ t.retriesToGo → cfg.split_on_exhaustion = true →
      resubmit cfg false current_chunksize t =
        .ok [{ cloneTask cfg t with retriesToGo := t.retriesToGo - 1 }]) := by
  constructor
  · intro l hl c hc
    rw [procSplitTasks] at hl
    cases hsp : procSplit current_chunksize t.entrystart t.entrystop with
    | none => rw [hsp] at hl; simp at hl
    | some rs =>
        rw [hsp] at hl
        simp only [Option.map_some'] at hl
        injection hl with hl2
        subst hl2
        obtain ⟨p, hp, rfl⟩ := List.mem_map.1 hc
        rfl
  · intro hb hflag
    exact resubmit_transient_ok cfg current_chunksize t hflag hb

/-- Counterexample for C7 as stated: a fresh task (budget 3) fails
transiently once and is resubmitted as a clone with budget 2; when that clone
is then split, both children carry budget 3 — the executor's initial budget,
NOT "the same retry budget as the original task" (2). -/
theorem split_budget_reset_cex :
    resubmit (ExecCfg.mk 3 true) false 4
        (mkProcTask (ExecCfg.mk 3 true) "p_1" 0 8) =
      .ok [PTask.mk "p_1" 0 8 2] ∧
    procSplitTasks (ExecCfg.mk 3 true) 4 (PTask.mk "p_1" 0 8 2) =
      some [PTask.mk "p_fresh" 0 4 3, PTask.mk "p_fresh" 4 8 3] ∧
    (PTask.mk "p_fresh" 0 4 3).retriesToGo ≠ (PTask.mk "p_1" 0 8 2).retriesToGo := by
  refine ⟨?_, ?_, by norm_num⟩
  · rw [resubmit, if_neg (by decide)]
    simp [cloneTask, mkProcTask]
  · have h : splitRanges 8 4 0 = [(0, 4), (4, 8)] := by
      rw [splitRanges, splitRanges, splitRanges]
      norm_num
    norm_num [procSplitTasks, procSplit, ceilDiv, h, mkProcTask]

/-- Witness for C7: the two children of splitting the budget-2 clone both
carry the executor's configured budget 3. -/
theorem split_budget_spec_witness :
    (PTask.mk "p_fresh" 0 4 3).retriesToGo = (ExecCfg.mk 3 true).retries ∧
    (PTask.mk "p_fresh" 4 8 3).retriesToGo = (ExecCfg.mk 3 true).retries := by
  have heval : procSplitTasks (ExecCfg.mk 3 true) 4 (PTask.mk "p_1" 0 8 2) =
      some [PTask.mk "p_fresh" 0 4 3, PTask.mk "p_fresh" 4 8 3] := by
    have h : splitRanges 8 4 0 = [(0, 4), (4, 8)] := by
      rw [splitRanges, splitRanges, splitRanges]
      norm_num
    norm_num [procSplitTasks, procSplit, ceilDiv, h, mkProcTask]
  constructor
  · exact (split_budget_spec (ExecCfg.mk 3 true) 4 (PTask.mk "p_1" 0 8 2)).1
      [PTask.mk "p_fresh" 0 4 3, PTask.mk "p_fresh" 4 8 3] heval
      (PTask.mk "p_fresh" 0 4 3) (List.mem_cons_self _ _)
  · exact (split_budget_spec (ExecCfg.mk 3 true) 4 (PTask.mk "p_1" 0 8 2)).1
      [PTask.mk "p_fresh" 0 4 3, PTask.mk "p_fresh" 4 8 3] heval
      (PTask.mk "p_fresh" 4 8 3)
      (List.mem_cons_of_mem _ (List.mem_cons_self _ _))
